import Mathlib

set_option maxHeartbeats 1000000
set_option maxRecDepth 100000

namespace Pillaxia

/-! Shallow embedding of `scripts/make_migrations_idempotent.py`.

File contents are `List Char`.  The five rewrite rules of
`process_migration_file` are embedded as executable functions; the regex
patterns of the script are embedded as hand-expanded matchers that follow
Python `re`'s leftmost, backtracking semantics for these particular patterns
(all quantifiers in them apply to single character classes, so only the
trigger pattern's `\s+.*?\s+ON\s+(\S+)` tail needs a genuine backtracking
search; the rest are deterministic maximal-run scans).  Character classes use
the ASCII fragment of Python's `\s` / `\w`, which is what migration files
contain. -/

/-- Characters of the regex class `\s` and of `str.strip()` (ASCII fragment). -/
def isWs (c : Char) : Bool :=
  c == ' ' || c == '\t' || c == '\n' || c == '\r' || c == '\x0b' || c == '\x0c'

/-- Word characters for the `\b` boundary in the table/index patterns
(`\w`, ASCII fragment). -/
def isWordChar (c : Char) : Bool := c.isAlphanum || c == '_'

/-- Character list of a string literal. -/
def lc (s : String) : List Char := s.toList

/-- Python slice `text[-n:]`. -/
def lastN (n : Nat) (l : List Char) : List Char := l.drop (l.length - n)

/-- Python's substring test `pat in s` (contiguous occurrence). -/
def occursIn (pat : List Char) : List Char → Bool
  | [] => pat.isEmpty
  | c :: rest => pat.isPrefixOf (c :: rest) || occursIn pat rest

/-- Python `str.replace old new` for the non-empty patterns used by the script
(all occurrences, scanned left to right, non-overlapping).  The `fuel`
argument only bounds the recursion; every scan step consumes at least one
character, so the wrapper's `s.length` never runs out. -/
def replaceAllAux (old new : List Char) : Nat → List Char → List Char
  | 0, s => s
  | _ + 1, [] => []
  | fuel + 1, c :: rest =>
    if old.isPrefixOf (c :: rest) && !old.isEmpty then
      new ++ replaceAllAux old new fuel (rest.drop (old.length - 1))
    else
      c :: replaceAllAux old new fuel rest

/-- Python `str.replace old new`. -/
def replaceAll (old new s : List Char) : List Char :=
  replaceAllAux old new s.length s

/-- Python `str.strip()` (whitespace removed from both ends). -/
def pyStrip (l : List Char) : List Char :=
  ((l.dropWhile isWs).reverse.dropWhile isWs).reverse

/-- Python `'\n'.join`. -/
def joinNl : List (List Char) → List Char
  | [] => []
  | [x] => x
  | x :: y :: rest => x ++ '\n' :: joinNl (y :: rest)

/-- Python `str.split('\n')`. -/
def splitNl : List Char → List (List Char)
  | [] => [[]]
  | c :: rest =>
    if c = '\n' then [] :: splitNl rest
    else
      match splitNl rest with
      | [] => [[c]]
      | x :: xs => (c :: x) :: xs

/-! The four `re.sub` patterns. -/

/-- Leading literal of `policy_pattern` (line 25). -/
def polLit : List Char := lc "CREATE POLICY \""

/-- Leading literal of `trigger_pattern` (line 48). -/
def trigLit : List Char := lc "CREATE TRIGGER "

/-- First-match semantics of `CREATE POLICY "([^"]+)"\s+ON\s+(\S+)` at the
head of `s`: consumed length plus the two capture groups.  Every quantifier is
a greedy `+` over a character class followed by material the class excludes,
so each run is the maximal one and must be non-empty. -/
def policyM (s : List Char) : Option (Nat × List Char × List Char) :=
  if polLit.isPrefixOf s then
    let s1 := s.drop polLit.length
    let name := s1.takeWhile (fun c => !(c == '\"'))
    if name = [] then none else
    match s1.dropWhile (fun c => !(c == '\"')) with
    | _ :: s3 =>
      -- the dropWhile can only stop at the closing quote, which the regex
      -- consumes here
      let w1 := s3.takeWhile isWs
      if w1 = [] then none else
      let s4 := s3.dropWhile isWs
      if (lc "ON").isPrefixOf s4 then
        let s5 := s4.drop 2
        let w2 := s5.takeWhile isWs
        if w2 = [] then none else
        let s6 := s5.dropWhile isWs
        let table := s6.takeWhile (fun c => !isWs c)
        if table = [] then none else
        some (s.length - (s6.drop table.length).length, name, table)
      else none
    | _ => none
  else none

/-- Alternation `(?:BEFORE|AFTER|INSTEAD OF)`, tried in pattern order. -/
def timingAt (s : List Char) : Option Nat :=
  if (lc "BEFORE").isPrefixOf s then some 6
  else if (lc "AFTER").isPrefixOf s then some 5
  else if (lc "INSTEAD OF").isPrefixOf s then some 10
  else none

/-- Deterministic part `\s+ON\s+(\S+)` of the trigger pattern's tail, tried at
one fixed end position of the lazy `.*?`: returns the remainder after the
whole match together with the captured table name. -/
def tryCON (s : List Char) : Option (List Char × List Char) :=
  let w := s.takeWhile isWs
  if w = [] then none else
  let s1 := s.dropWhile isWs
  if (lc "ON").isPrefixOf s1 then
    let s2 := s1.drop 2
    let w2 := s2.takeWhile isWs
    if w2 = [] then none else
    let s3 := s2.dropWhile isWs
    let table := s3.takeWhile (fun c => !isWs c)
    if table = [] then none else
    some (s3.drop table.length, table)
  else none

/-- Lazy `.*?`: end positions tried left to right, with `.` never crossing a
newline. -/
def searchB : List Char → Option (List Char × List Char)
  | [] => tryCON []
  | c :: rest =>
    match tryCON (c :: rest) with
    | some r => some r
    | none => if c = '\n' then none else searchB rest

/-- Greedy first `\s+` of the trigger tail: Python backtracks its length from
the maximal whitespace run down to 1 (the `a = 0` case is never reached from
`trigTail`). -/
def searchA (s : List Char) : Nat → Option (List Char × List Char)
  | 0 => searchB s
  | a + 1 =>
    match searchB (s.drop (a + 1)) with
    | some r => some r
    | none => if a = 0 then none else searchA s a

/-- Backtracking search for the trigger pattern tail `\s+.*?\s+ON\s+(\S+)`:
first whitespace run longest-first, then the lazy dot shortest-first. -/
def trigTail (s : List Char) : Option (List Char × List Char) :=
  let aMax := (s.takeWhile isWs).length
  if aMax = 0 then none else searchA s aMax

/-- First-match semantics of
`CREATE TRIGGER (\S+)\s+(?:BEFORE|AFTER|INSTEAD OF)\s+.*?\s+ON\s+(\S+)`
at the head of `s`. -/
def triggerM (s : List Char) : Option (Nat × List Char × List Char) :=
  if trigLit.isPrefixOf s then
    let s1 := s.drop trigLit.length
    let name := s1.takeWhile (fun c => !isWs c)
    if name = [] then none else
    let s2 := s1.dropWhile (fun c => !isWs c)
    let w1 := s2.takeWhile isWs
    if w1 = [] then none else
    let s3 := s2.dropWhile isWs
    match timingAt s3 with
    | none => none
    | some tl =>
      match trigTail (s3.drop tl) with
      | none => none
      | some (rest, table) => some (s.length - rest.length, name, table)
  else none

/-- The `\b` before `CREATE`: the preceding character (if any) must not be a
word character (`C` itself is one). -/
def atBoundary : Option Char → Bool
  | none => true
  | some c => !isWordChar c

/-- First-match semantics of `\bCREATE TABLE (public\.\S+)` at the head of
`s`, given the character preceding `s`. -/
def tableM (prev : Option Char) (s : List Char) : Option (Nat × Unit) :=
  if atBoundary prev && (lc "CREATE TABLE public.").isPrefixOf s then
    let s1 := s.drop 20
    let nm := s1.takeWhile (fun c => !isWs c)
    if nm = [] then none else
    some (s.length - (s1.drop nm.length).length, ())
  else none

/-- First-match semantics of `\bCREATE (?:UNIQUE )?INDEX (\S+)`: the optional
group is tried greedily; if its branch fails, `INDEX ` must follow `CREATE `
directly. -/
def indexM (prev : Option Char) (s : List Char) : Option (Nat × Unit) :=
  if atBoundary prev && (lc "CREATE ").isPrefixOf s then
    let s1 := s.drop 7
    if (lc "UNIQUE INDEX ").isPrefixOf s1 then
      let s2 := s1.drop 13
      let nm := s2.takeWhile (fun c => !isWs c)
      if nm = [] then none else
      some (s.length - (s2.drop nm.length).length, ())
    else if (lc "INDEX ").isPrefixOf s1 then
      let s2 := s1.drop 6
      let nm := s2.takeWhile (fun c => !isWs c)
      if nm = [] then none else
      some (s.length - (s2.drop nm.length).length, ())
    else none
  else none

/-! Replacement callbacks. -/

/-- `add_drop_policy` (lines 27-39): `before` is the last 200 characters of
the content before the match, `mt` the matched text, `g` the two groups. -/
def add_drop_policy (before mt : List Char) (g : List Char × List Char) : List Char :=
  let dropCheck := lc "DROP POLICY IF EXISTS \"" ++ g.1 ++ lc "\" ON " ++ g.2 ++ lc ";"
  if occursIn dropCheck before then mt else dropCheck ++ '\n' :: mt

/-- `add_drop_trigger` (lines 50-62). -/
def add_drop_trigger (before mt : List Char) (g : List Char × List Char) : List Char :=
  let dropCheck := lc "DROP TRIGGER IF EXISTS " ++ g.1 ++ lc " ON " ++ g.2 ++ lc ";"
  if occursIn dropCheck before then mt else dropCheck ++ '\n' :: mt

/-- `add_if_not_exists_table` (lines 72-76). -/
def add_if_not_exists_table (_before mt : List Char) (_ : Unit) : List Char :=
  if occursIn (lc "IF NOT EXISTS") mt then mt
  else replaceAll (lc "CREATE TABLE") (lc "CREATE TABLE IF NOT EXISTS") mt

/-- `add_if_not_exists_index` (lines 86-92). -/
def add_if_not_exists_index (_before mt : List Char) (_ : Unit) : List Char :=
  if occursIn (lc "IF NOT EXISTS") mt then mt
  else if occursIn (lc "UNIQUE INDEX") mt then
    replaceAll (lc "CREATE UNIQUE INDEX") (lc "CREATE UNIQUE INDEX IF NOT EXISTS") mt
  else replaceAll (lc "CREATE INDEX") (lc "CREATE INDEX IF NOT EXISTS") mt

/-- `re.sub` with a function replacement: scan left to right, at each position
try the pattern (`m` also sees the preceding character, for `\b`), on a match
emit the replacement and resume after the consumed text.  `orig` is the whole
string being scanned and `i` the current absolute position; the replacement
receives the last 200 characters of `orig` before the match.  Every pattern
embedded here consumes at least one character, hence the harmless `len.max 1`
under the recursion. -/
def reSubAux {α : Type} (m : Option Char → List Char → Option (Nat × α))
    (r : List Char → List Char → α → List Char) (orig : List Char) :
    Nat → Option Char → Nat → List Char → List Char
  | 0, _, _, s => s
  | _ + 1, _, _, [] => []
  | fuel + 1, prev, i, c :: rest =>
    match m prev (c :: rest) with
    | some (len, a) =>
      let len1 := len.max 1
      let mt := (c :: rest).take len1
      r (lastN 200 (orig.take i)) mt a ++
        reSubAux m r orig fuel mt.getLast? (i + len1) (rest.drop (len1 - 1))
    | none => c :: reSubAux m r orig fuel (some c) (i + 1) rest

/-- Rule 1 (line 41): `re.sub(policy_pattern, add_drop_policy, content)`. -/
def policySub (c : List Char) : List Char :=
  reSubAux (fun _ s => policyM s) add_drop_policy c c.length none 0 c

/-- Rule 2 (line 64): `re.sub(trigger_pattern, add_drop_trigger, content)`. -/
def triggerSub (c : List Char) : List Char :=
  reSubAux (fun _ s => triggerM s) add_drop_trigger c c.length none 0 c

/-- Rule 3 (line 78): `re.sub(table_pattern, add_if_not_exists_table, content)`. -/
def tableSub (c : List Char) : List Char :=
  reSubAux tableM add_if_not_exists_table c c.length none 0 c

/-- Rule 4 (line 94): `re.sub(index_pattern, add_if_not_exists_index, content)`. -/
def indexSub (c : List Char) : List Char :=
  reSubAux indexM add_if_not_exists_index c c.length none 0 c

/-! Rule 5: the line-based `CREATE TYPE` wrapper (lines 124-153). -/

/-- `re.match(type_pattern, line.strip())` as a Boolean: does the stripped
line start with `CREATE TYPE public\.\S+ AS ENUM`? -/
def typeLineMatch (l : List Char) : Bool :=
  let s := pyStrip l
  if (lc "CREATE TYPE public.").isPrefixOf s then
    let s1 := s.drop 19
    let nm := s1.takeWhile (fun c => !isWs c)
    if nm = [] then false else (lc " AS ENUM").isPrefixOf (s1.drop nm.length)
  else false

/-- The collection loop (lines 133-138): keep taking lines while the
previously taken line does not contain a semicolon; returns the collected
lines and the remaining ones. -/
def collectSemi : List Char → List (List Char) → List (List Char) × List (List Char)
  | prev, ls =>
    if prev.contains ';' then ([], ls)
    else
      match ls with
      | [] => ([], [])
      | x :: xs =>
        let p := collectSemi x xs
        (x :: p.1, p.2)

theorem collectSemi_rest_le (prev : List Char) (ls : List (List Char)) :
    (collectSemi prev ls).2.length ≤ ls.length := by
  induction ls generalizing prev with
  | nil => simp [collectSemi]
  | cons x xs ih =>
    simp only [collectSemi]
    split
    · simp
    · simpa using Nat.le_succ_of_le (ih x)

/-- The wrapper block emitted for one collected `CREATE TYPE` definition
(lines 143-147).  Only the first line of the definition receives the
two-space indent; embedded newlines are re-expanded by the final join. -/
def blockLines (defn : List Char) : List (List Char) :=
  [lc "DO $$ BEGIN", lc "  " ++ defn, lc "EXCEPTION",
   lc "  WHEN duplicate_object THEN null;", lc "END $$;"]

/-- The line loop of rule 5 (lines 126-152): wrap each line-anchored
`CREATE TYPE ... AS ENUM` statement, collecting its lines up to the first one
containing a semicolon; returns the new lines and whether anything was
wrapped.  (The source also recomputes `type_name` via `re.search` inside the
loop; the value is unused, so it is omitted here.) -/
def enumWrapAux : Nat → List (List Char) → List (List Char) × Bool
  | 0, ls => (ls, false)
  | _ + 1, [] => ([], false)
  | fuel + 1, l :: ls =>
    if typeLineMatch l then
      let p := collectSemi l ls
      let defn := joinNl (l :: p.1)
      let out := enumWrapAux fuel p.2
      (blockLines defn ++ out.1, true)
    else
      let out := enumWrapAux fuel ls
      (l :: out.1, out.2)

/-- The rule-5 line loop, with enough fuel for the whole line list (the loop
index advances by at least one line per iteration). -/
def enumWrap (ls : List (List Char)) : List (List Char) × Bool :=
  enumWrapAux ls.length ls

/-- Rule 5 at content level (lines 124-153): only applied when the content
mentions `CREATE TYPE` and contains no `DO $$ BEGIN` marker anywhere; `st` is
the (content, modified) pair threaded through the rules. -/
def enumStep (st : List Char × Bool) : List Char × Bool :=
  if occursIn (lc "CREATE TYPE") st.1 && !occursIn (lc "DO $$ BEGIN") st.1 then
    let p := enumWrap (splitNl st.1)
    (joinNl p.1, st.2 || p.2)
  else st

/-- One `new_content = re.sub(...); if new_content != content: modified = True;
content = new_content` step (e.g. lines 41-44). -/
def applyRule (rule : List Char → List Char) (st : List Char × Bool) : List Char × Bool :=
  let n := rule st.1
  (n, st.2 || !(n == st.1))

/-- The pure transformation performed by `process_migration_file`
(lines 14-153): the five rules in order, threading the modified flag. -/
def process_migration_file (c : List Char) : List Char × Bool :=
  enumStep (applyRule indexSub (applyRule tableSub (applyRule triggerSub
    (applyRule policySub (c, false)))))

/-- The file boundary of `process_migration_file` (lines 155-161): the new
content is written back exactly when the modified flag is set, and the flag is
the function's return value. -/
def process_result (c : List Char) : Option (List Char) × Bool :=
  let p := process_migration_file c
  (if p.2 then some p.1 else none, p.2)

/-- One iteration of main's loop (lines 183-190): the file is read,
transformed and possibly written; exceptions raised while reading or writing
are modeled by `Except.error`. -/
def processOne (readRes : Except String (List Char)) (writeOk : Bool) :
    Except String Bool :=
  match readRes with
  | .error e => .error e
  | .ok content =>
    let p := process_migration_file content
    if p.2 then (if writeOk then .ok true else .error "write failed") else .ok false

/-- main's loop over the sorted migration files (lines 180-190): a caught
exception is reported and leaves the modified counter unchanged, and the loop
moves on to the next file. -/
def runBatch (files : List (Except String (List Char) × Bool)) : Nat :=
  files.foldl
    (fun n f =>
      match processOne f.1 f.2 with
      | .ok true => n + 1
      | .ok false => n
      | .error _ => n) 0

/-- `main` (lines 164-200) as (exit code, number of modified files): a missing
migrations directory returns 1 before any file is touched; otherwise the whole
batch is processed and 0 is returned. -/
def mainResult (dirExists : Bool)
    (files : List (Except String (List Char) × Bool)) : Nat × Nat :=
  if dirExists then (0, runBatch files) else (1, 0)

/-! Basic facts about the string helpers. -/

theorem takeWhile_append_all (p : Char → Bool) (l r : List Char)
    (h : ∀ a ∈ l, p a = true) :
    (l ++ r).takeWhile p = l ++ r.takeWhile p := by
  induction l with
  | nil => simp
  | cons c cl ih =>
    have hc : p c = true := h c (by simp)
    simp only [List.cons_append, List.takeWhile_cons, hc, if_true]
    rw [ih (fun a ha => h a (by simp [ha]))]

theorem dropWhile_append_all (p : Char → Bool) (l r : List Char)
    (h : ∀ a ∈ l, p a = true) :
    (l ++ r).dropWhile p = r.dropWhile p := by
  induction l with
  | nil => simp
  | cons c cl ih =>
    have hc : p c = true := h c (by simp)
    simp only [List.cons_append, List.dropWhile_cons, hc, if_true]
    exact ih (fun a ha => h a (by simp [ha]))

theorem takeWhile_cons_neg (p : Char → Bool) (c : Char) (r : List Char)
    (h : p c = false) : (c :: r).takeWhile p = [] := by
  simp [List.takeWhile_cons, h]

theorem dropWhile_cons_neg (p : Char → Bool) (c : Char) (r : List Char)
    (h : p c = false) : (c :: r).dropWhile p = c :: r := by
  simp [List.dropWhile_cons, h]

theorem isPrefixOf_append_self (l r : List Char) : l.isPrefixOf (l ++ r) = true := by
  induction l with
  | nil => simp [List.isPrefixOf]
  | cons c cl ih => simp [List.isPrefixOf, ih]

theorem isPrefixOf_ex {l s : List Char} :
    l.isPrefixOf s = true ↔ ∃ r, s = l ++ r := by
  induction l generalizing s with
  | nil => exact ⟨fun _ => ⟨s, rfl⟩, fun _ => by simp [List.isPrefixOf]⟩
  | cons c cl ih =>
    cases s with
    | nil => simp [List.isPrefixOf]
    | cons b bs =>
      simp only [List.isPrefixOf, Bool.and_eq_true, beq_iff_eq, List.cons_append]
      constructor
      · rintro ⟨rfl, h2⟩
        obtain ⟨r, rfl⟩ := ih.mp h2
        exact ⟨r, rfl⟩
      · rintro ⟨r, hr⟩
        injection hr with h1 h2
        exact ⟨h1.symm, ih.mpr ⟨r, h2⟩⟩

theorem occursIn_of_pre {pat s : List Char} (h : pat.isPrefixOf s = true) :
    occursIn pat s = true := by
  cases s with
  | nil =>
    cases pat with
    | nil => rfl
    | cons c cs => simp [List.isPrefixOf] at h
  | cons c rest => simp [occursIn, h]

theorem occursIn_append_right (pat a b : List Char) (h : occursIn pat b = true) :
    occursIn pat (a ++ b) = true := by
  induction a with
  | nil => simpa
  | cons c ca ih => simp [occursIn, ih]

theorem occursIn_mid (pat x y : List Char) : occursIn pat (x ++ pat ++ y) = true := by
  induction x with
  | nil =>
    simp only [List.nil_append]
    exact occursIn_of_pre (isPrefixOf_append_self pat y)
  | cons c cx ih => simp only [List.cons_append, occursIn, List.append_eq, ih, Bool.or_true]

/-- The character preceding the continuation point after copying `u`. -/
def prevAfter (u : List Char) (prev : Option Char) : Option Char :=
  if u = [] then prev else u.getLast?

theorem prevAfter_cons (c : Char) (u : List Char) (prev : Option Char) :
    prevAfter (c :: u) prev = prevAfter u (some c) := by
  cases u with
  | nil => simp [prevAfter]
  | cons x xs => simp [prevAfter, List.getLast?_cons_cons]

/-! Scanning lemmas for the embedded `re.sub`. -/

theorem reSubAux_nil {α : Type} (m : Option Char → List Char → Option (Nat × α))
    (r : List Char → List Char → α → List Char) (orig : List Char)
    (fuel : Nat) (prev : Option Char) (i : Nat) :
    reSubAux m r orig fuel prev i [] = [] := by
  cases fuel <;> rfl

theorem reSubAux_cons_none {α : Type} (m : Option Char → List Char → Option (Nat × α))
    (r : List Char → List Char → α → List Char) (orig : List Char)
    (fuel : Nat) (prev : Option Char) (i : Nat) (c : Char) (rest : List Char)
    (hm : m prev (c :: rest) = none) :
    reSubAux m r orig (fuel + 1) prev i (c :: rest) =
      c :: reSubAux m r orig fuel (some c) (i + 1) rest := by
  simp only [reSubAux, hm]

theorem reSubAux_cons_match {α : Type} (m : Option Char → List Char → Option (Nat × α))
    (r : List Char → List Char → α → List Char) (orig : List Char)
    (fuel : Nat) (prev : Option Char) (i : Nat) (c : Char) (rest : List Char)
    (len : Nat) (a : α)
    (hm : m prev (c :: rest) = some (len, a)) (h1 : 1 ≤ len) :
    reSubAux m r orig (fuel + 1) prev i (c :: rest) =
      r (lastN 200 (orig.take i)) ((c :: rest).take len) a ++
        reSubAux m r orig fuel ((c :: rest).take len).getLast? (i + len)
          ((c :: rest).drop len) := by
  obtain ⟨k, rfl⟩ : ∃ k, len = k + 1 := ⟨len - 1, by omega⟩
  have hmax : (k + 1).max 1 = k + 1 := Nat.max_eq_left (by omega)
  simp only [reSubAux, hm, hmax, List.drop_succ_cons, Nat.add_sub_cancel]

theorem reSubAux_match {α : Type} (m : Option Char → List Char → Option (Nat × α))
    (r : List Char → List Char → α → List Char) (orig : List Char)
    (fuel : Nat) (prev : Option Char) (i : Nat) (s : List Char) (len : Nat) (a : α)
    (hm : m prev s = some (len, a)) (h1 : 1 ≤ len) (hs : s ≠ []) :
    reSubAux m r orig (fuel + 1) prev i s =
      r (lastN 200 (orig.take i)) (s.take len) a ++
        reSubAux m r orig fuel (s.take len).getLast? (i + len) (s.drop len) := by
  cases s with
  | nil => exact absurd rfl hs
  | cons c rest => exact reSubAux_cons_match m r orig fuel prev i c rest len a hm h1

theorem reSubAux_skip {α : Type} (m : Option Char → List Char → Option (Nat × α))
    (r : List Char → List Char → α → List Char) (orig : List Char) :
    ∀ (u v : List Char) (fuel : Nat) (prev : Option Char) (i : Nat),
      (∀ k, k < u.length → ∀ pc, m pc ((u ++ v).drop k) = none) →
      reSubAux m r orig (u.length + fuel) prev i (u ++ v) =
        u ++ reSubAux m r orig fuel (prevAfter u prev) (i + u.length) v := by
  intro u
  induction u with
  | nil => intro v fuel prev i _; simp [prevAfter]
  | cons c cu ih =>
    intro v fuel prev i h
    have h0 : m prev (c :: (cu ++ v)) = none := by
      simpa using h 0 (by simp) prev
    have hl : (c :: cu).length + fuel = (cu.length + fuel) + 1 := by
      simp only [List.length_cons]; omega
    have hi : i + (c :: cu).length = (i + 1) + cu.length := by
      simp only [List.length_cons]; omega
    rw [List.cons_append, hl, reSubAux_cons_none _ _ _ _ _ _ _ _ h0, prevAfter_cons, hi,
      ih v fuel (some c) (i + 1) (fun k hk pc => by
        simpa using h (k + 1) (by simp only [List.length_cons]; omega) pc)]
    rfl

theorem reSubAux_id {α : Type} (m : Option Char → List Char → Option (Nat × α))
    (r : List Char → List Char → α → List Char) (orig : List Char) :
    ∀ (fuel : Nat) (v : List Char) (prev : Option Char) (i : Nat),
      (∀ k pc, m pc (v.drop k) = none) →
      reSubAux m r orig fuel prev i v = v := by
  intro fuel
  induction fuel with
  | zero => intro v prev i _; rfl
  | succ n ih =>
    intro v prev i h
    cases v with
    | nil => rfl
    | cons c cv =>
      have h0 : m prev (c :: cv) = none := by simpa using h 0 prev
      rw [reSubAux_cons_none _ _ _ _ _ _ _ _ h0]
      exact congrArg (c :: ·)
        (ih cv (some c) (i + 1) (fun k pc => by simpa using h (k + 1) pc))

theorem reSubAux_sub {α : Type} (m : Option Char → List Char → Option (Nat × α))
    (r : List Char → List Char → α → List Char)
    (hr : ∀ (b mt : List Char) (a : α), mt.Sublist (r b mt a)) (orig : List Char) :
    ∀ (fuel : Nat) (s : List Char) (prev : Option Char) (i : Nat),
      s.Sublist (reSubAux m r orig fuel prev i s) := by
  intro fuel
  induction fuel with
  | zero => intro s prev i; exact List.Sublist.refl s
  | succ n ih =>
    intro s prev i
    cases s with
    | nil => simp [reSubAux_nil]
    | cons c rest =>
      cases hm : m prev (c :: rest) with
      | none =>
        rw [reSubAux_cons_none _ _ _ _ _ _ _ _ hm]
        exact (ih rest (some c) (i + 1)).cons₂ c
      | some la =>
        obtain ⟨len, a⟩ := la
        simp only [reSubAux, hm]
        have hone : 1 ≤ len.max 1 := Nat.le_max_right len 1
        have hd : (c :: rest).drop (len.max 1) = rest.drop (len.max 1 - 1) := by
          obtain ⟨k, hk⟩ : ∃ k, len.max 1 = k + 1 := ⟨len.max 1 - 1, by omega⟩
          rw [hk]; simp [List.drop_succ_cons]
        have hsp : (c :: rest) = (c :: rest).take (len.max 1) ++ rest.drop (len.max 1 - 1) := by
          rw [← hd]; exact (List.take_append_drop _ _).symm
        nth_rewrite 1 [hsp]
        exact List.Sublist.append (hr _ _ _) (ih _ _ _)

/-! The rules only ever insert characters: each replacement keeps the matched
text as a sublist, hence each rule keeps its input as a sublist. -/

theorem replaceAllAux_sub (old ext : List Char) :
    ∀ (fuel : Nat) (s : List Char), s.Sublist (replaceAllAux old (old ++ ext) fuel s) := by
  intro fuel
  induction fuel with
  | zero => intro s; exact List.Sublist.refl s
  | succ n ih =>
    intro s
    cases s with
    | nil => exact List.Sublist.refl []
    | cons c rest =>
      by_cases hp : (old.isPrefixOf (c :: rest) && !old.isEmpty) = true
      · rw [replaceAllAux, if_pos hp]
        obtain ⟨hpre, hne⟩ := Bool.and_eq_true .. |>.mp hp
        obtain ⟨rr, hrr⟩ := isPrefixOf_ex.mp hpre
        have hold : old ≠ [] := by
          cases old with
          | nil => simp at hne
          | cons a as => exact List.cons_ne_nil a as
        have hdrop : rest.drop (old.length - 1) = rr := by
          have h1 : (c :: rest).drop old.length = rr := by
            rw [hrr]; exact List.drop_left old rr
          obtain ⟨k, hk⟩ : ∃ k, old.length = k + 1 := by
            cases old with
            | nil => exact absurd rfl hold
            | cons a as => exact ⟨as.length, rfl⟩
          rw [hk] at h1
          simpa [List.drop_succ_cons, hk] using h1
        rw [hrr, hdrop]
        exact List.Sublist.append (List.sublist_append_left old ext) (ih rr)
      · rw [replaceAllAux, if_neg hp]
        exact (ih rest).cons₂ c

theorem replaceAll_sub (old ext s : List Char) :
    s.Sublist (replaceAll old (old ++ ext) s) :=
  replaceAllAux_sub old ext s.length s

theorem sub_cons_self (x : Char) (a b : List Char) : b.Sublist (a ++ x :: b) := by
  have : a ++ x :: b = (a ++ [x]) ++ b := by simp
  rw [this]
  exact List.sublist_append_right _ _

theorem add_drop_policy_sub (b mt : List Char) (g : List Char × List Char) :
    mt.Sublist (add_drop_policy b mt g) := by
  unfold add_drop_policy
  dsimp only
  split
  · exact List.Sublist.refl mt
  · exact sub_cons_self '\n' _ mt

theorem add_drop_trigger_sub (b mt : List Char) (g : List Char × List Char) :
    mt.Sublist (add_drop_trigger b mt g) := by
  unfold add_drop_trigger
  dsimp only
  split
  · exact List.Sublist.refl mt
  · exact sub_cons_self '\n' _ mt

theorem add_if_not_exists_table_sub (b mt : List Char) (u : Unit) :
    mt.Sublist (add_if_not_exists_table b mt u) := by
  unfold add_if_not_exists_table
  split
  · exact List.Sublist.refl mt
  · have he : lc "CREATE TABLE IF NOT EXISTS" = lc "CREATE TABLE" ++ lc " IF NOT EXISTS" := by
      decide
    rw [he]
    exact replaceAll_sub _ _ mt

theorem add_if_not_exists_index_sub (b mt : List Char) (u : Unit) :
    mt.Sublist (add_if_not_exists_index b mt u) := by
  unfold add_if_not_exists_index
  split
  · exact List.Sublist.refl mt
  · split
    · have he : lc "CREATE UNIQUE INDEX IF NOT EXISTS" =
          lc "CREATE UNIQUE INDEX" ++ lc " IF NOT EXISTS" := by decide
      rw [he]
      exact replaceAll_sub _ _ mt
    · have he : lc "CREATE INDEX IF NOT EXISTS" = lc "CREATE INDEX" ++ lc " IF NOT EXISTS" := by
        decide
      rw [he]
      exact replaceAll_sub _ _ mt

theorem policySub_sub (c : List Char) : c.Sublist (policySub c) :=
  reSubAux_sub _ _ (fun b mt g => add_drop_policy_sub b mt g) c c.length c none 0

theorem triggerSub_sub (c : List Char) : c.Sublist (triggerSub c) :=
  reSubAux_sub _ _ (fun b mt g => add_drop_trigger_sub b mt g) c c.length c none 0

theorem tableSub_sub (c : List Char) : c.Sublist (tableSub c) :=
  reSubAux_sub _ _ (fun b mt u => add_if_not_exists_table_sub b mt u) c c.length c none 0

theorem indexSub_sub (c : List Char) : c.Sublist (indexSub c) :=
  reSubAux_sub _ _ (fun b mt u => add_if_not_exists_index_sub b mt u) c c.length c none 0

/-! Facts about split and join. -/

theorem splitNl_ne_nil (s : List Char) : splitNl s ≠ [] := by
  cases s with
  | nil => simp [splitNl]
  | cons c rest =>
    simp only [splitNl]
    by_cases hc : c = '\n'
    · simp [hc]
    · rw [if_neg hc]
      cases splitNl rest with
      | nil => simp
      | cons x xs => simp

theorem splitNl_cons_nl (rest : List Char) : splitNl ('\n' :: rest) = [] :: splitNl rest := by
  simp [splitNl]

theorem splitNl_cons_other (c : Char) (rest : List Char) (hc : c ≠ '\n')
    (x : List Char) (xs : List (List Char)) (hs : splitNl rest = x :: xs) :
    splitNl (c :: rest) = (c :: x) :: xs := by
  simp [splitNl, hc, hs]

theorem joinNl_cons (x : List Char) (ls : List (List Char)) (h : ls ≠ []) :
    joinNl (x :: ls) = x ++ '\n' :: joinNl ls := by
  cases ls with
  | nil => exact absurd rfl h
  | cons y ys => rfl

theorem joinNl_cons_char (c : Char) (x : List Char) (xs : List (List Char)) :
    joinNl ((c :: x) :: xs) = c :: joinNl (x :: xs) := by
  cases xs with
  | nil => rfl
  | cons y ys => rfl

theorem splitNl_join (s : List Char) : joinNl (splitNl s) = s := by
  induction s with
  | nil => rfl
  | cons c rest ih =>
    by_cases hc : c = '\n'
    · subst hc
      rw [splitNl_cons_nl, joinNl_cons [] (splitNl rest) (splitNl_ne_nil rest)]
      simpa using ih
    · cases hs : splitNl rest with
      | nil => exact absurd hs (splitNl_ne_nil rest)
      | cons x xs =>
        rw [hs] at ih
        rw [splitNl_cons_other c rest hc x xs hs, joinNl_cons_char]
        exact congrArg (List.cons c) ih

theorem splitNl_no_nl (x : List Char) (h : '\n' ∉ x) : splitNl x = [x] := by
  induction x with
  | nil => rfl
  | cons c rest ih =>
    have hc : c ≠ '\n' := fun hcc => h (by simp [hcc])
    have hr : splitNl rest = [rest] := ih (fun hm => h (by simp [hm]))
    rw [splitNl_cons_other c rest hc rest [] hr]

theorem splitNl_append_nl (x t : List Char) (h : '\n' ∉ x) :
    splitNl (x ++ '\n' :: t) = x :: splitNl t := by
  induction x with
  | nil =>
    simp only [List.nil_append]
    exact splitNl_cons_nl t
  | cons c rest ih =>
    have hc : c ≠ '\n' := fun hcc => h (by simp [hcc])
    have hr := ih (fun hm => h (by simp [hm]))
    cases hs : splitNl (rest ++ '\n' :: t) with
    | nil => exact absurd hs (splitNl_ne_nil _)
    | cons y ys =>
      rw [hs] at hr
      injection hr with hr1 hr2
      rw [List.cons_append, splitNl_cons_other c _ hc y ys hs, hr1, hr2]

theorem splitNl_joinNl (L : List (List Char)) (hne : L ≠ [])
    (h : ∀ l ∈ L, '\n' ∉ l) : splitNl (joinNl L) = L := by
  induction L with
  | nil => exact absurd rfl hne
  | cons x ls ih =>
    cases ls with
    | nil => exact splitNl_no_nl x (h x (by simp))
    | cons y ys =>
      rw [joinNl_cons x (y :: ys) (by simp)]
      rw [splitNl_append_nl x _ (h x (by simp))]
      rw [ih (by simp) (fun l hl => h l (by simp [hl]))]

theorem joinNl_append (a b : List (List Char)) (ha : a ≠ []) (hb : b ≠ []) :
    joinNl (a ++ b) = joinNl a ++ '\n' :: joinNl b := by
  induction a with
  | nil => exact absurd rfl ha
  | cons x xs ih =>
    cases xs with
    | nil =>
      cases b with
      | nil => exact absurd rfl hb
      | cons y ys =>
        rw [List.singleton_append, joinNl_cons x (y :: ys) (by simp)]
        rfl
    | cons z zs =>
      rw [List.cons_append, joinNl_cons x ((z :: zs) ++ b) (by simp),
        joinNl_cons x (z :: zs) (by simp), ih (by simp)]
      simp

/-! Facts about the rule-5 loop. -/

theorem collectSemi_split (prev : List Char) (ls : List (List Char)) :
    (collectSemi prev ls).1 ++ (collectSemi prev ls).2 = ls := by
  induction ls generalizing prev with
  | nil =>
    simp only [collectSemi]
    split
    · simp
    · simp
  | cons x xs ih =>
    simp only [collectSemi]
    split
    · simp
    · simpa using ih x

theorem collectSemi_stop (prev : List Char) (ls : List (List Char))
    (hp : prev.contains ';' = true) : collectSemi prev ls = ([], ls) := by
  cases ls with
  | nil =>
    simp only [collectSemi]
    rw [if_pos hp]
  | cons x xs =>
    simp only [collectSemi]
    rw [if_pos hp]

theorem collectSemi_all (prev : List Char) (ls : List (List Char))
    (hp : prev.contains ';' = false) (h : ∀ l ∈ ls, l.contains ';' = false) :
    collectSemi prev ls = (ls, []) := by
  induction ls generalizing prev with
  | nil =>
    simp only [collectSemi]
    rw [if_neg (by rw [hp]; simp)]
  | cons x xs ih =>
    simp only [collectSemi]
    rw [if_neg (by rw [hp]; simp)]
    simp [ih x (h x (by simp)) (fun l hl => h l (by simp [hl]))]

theorem enumWrap_nil : enumWrap [] = ([], false) := rfl

theorem enumWrapAux_eq : ∀ (n : Nat) (ls : List (List Char)), ls.length ≤ n →
    ∀ (fuel : Nat), ls.length ≤ fuel → enumWrapAux fuel ls = enumWrap ls := by
  intro n
  induction n with
  | zero =>
    intro ls h fuel hf
    have hnil : ls = [] := by
      cases ls with
      | nil => rfl
      | cons x xs => simp at h
    subst hnil
    cases fuel <;> rfl
  | succ n ih =>
    intro ls h fuel hf
    cases ls with
    | nil => cases fuel <;> rfl
    | cons l ls' =>
      obtain ⟨f', rfl⟩ : ∃ f', fuel = f' + 1 :=
        ⟨fuel - 1, by simp only [List.length_cons] at hf; omega⟩
      show enumWrapAux (f' + 1) (l :: ls') = enumWrapAux (l :: ls').length (l :: ls')
      simp only [List.length_cons]
      simp only [enumWrapAux]
      have hlen : ls'.length ≤ n := by simp only [List.length_cons] at h; omega
      have hfl : ls'.length ≤ f' := by simp only [List.length_cons] at hf; omega
      by_cases ht : typeLineMatch l = true
      · simp only [ht, if_true]
        have hrem := collectSemi_rest_le l ls'
        rw [ih (collectSemi l ls').2 (by omega) f' (by omega),
          ih (collectSemi l ls').2 (by omega) ls'.length (by omega)]
      · have ht' : typeLineMatch l = false := by simpa using ht
        simp only [ht', Bool.false_eq_true, if_false]
        rw [ih ls' hlen f' hfl, ih ls' hlen ls'.length le_rfl]

theorem enumWrapAux_fuel (fuel : Nat) (ls : List (List Char)) (h : ls.length ≤ fuel) :
    enumWrapAux fuel ls = enumWrap ls :=
  enumWrapAux_eq ls.length ls le_rfl fuel h

theorem enumWrap_cons_pos (l : List Char) (ls : List (List Char))
    (h : typeLineMatch l = true) :
    enumWrap (l :: ls) =
      (blockLines (joinNl (l :: (collectSemi l ls).1)) ++
        (enumWrap (collectSemi l ls).2).1, true) := by
  show enumWrapAux (l :: ls).length (l :: ls) = _
  simp only [List.length_cons, enumWrapAux, h, if_true]
  rw [enumWrapAux_fuel ls.length _ (collectSemi_rest_le l ls)]

theorem enumWrap_cons_neg (l : List Char) (ls : List (List Char))
    (h : typeLineMatch l = false) :
    enumWrap (l :: ls) = (l :: (enumWrap ls).1, (enumWrap ls).2) := by
  show enumWrapAux (l :: ls).length (l :: ls) = _
  simp only [List.length_cons, enumWrapAux, h, Bool.false_eq_true, if_false]
  rw [enumWrapAux_fuel ls.length ls le_rfl]

theorem enumWrap_skip (A rest : List (List Char))
    (hA : ∀ l ∈ A, typeLineMatch l = false) :
    enumWrap (A ++ rest) = (A ++ (enumWrap rest).1, (enumWrap rest).2) := by
  induction A with
  | nil => simp
  | cons x xs ih =>
    rw [List.cons_append, enumWrap_cons_neg x _ (hA x (by simp)),
      ih (fun l hl => hA l (by simp [hl]))]
    simp

theorem enumWrap_no_match (ls : List (List Char))
    (h : ∀ l ∈ ls, typeLineMatch l = false) : enumWrap ls = (ls, false) := by
  have := enumWrap_skip ls [] h
  simpa [enumWrap_nil] using this

theorem enumWrap_not_wrapped (ls : List (List Char)) (h : (enumWrap ls).2 = false) :
    (enumWrap ls).1 = ls := by
  induction ls with
  | nil => simp [enumWrap_nil]
  | cons l rest ih =>
    by_cases ht : typeLineMatch l = true
    · rw [enumWrap_cons_pos l rest ht] at h
      simp at h
    · rw [enumWrap_cons_neg l rest (by simpa using ht)] at h ⊢
      simpa using ih (by simpa using h)

theorem joinNl_block (d : List Char) :
    joinNl (blockLines d) =
      lc "DO $$ BEGIN" ++ '\n' :: ((lc "  " ++ d) ++ '\n' :: (lc "EXCEPTION" ++ '\n' ::
        (lc "  WHEN duplicate_object THEN null;" ++ '\n' :: lc "END $$;"))) := by
  simp [blockLines, joinNl]

theorem sub_block (d : List Char) : d.Sublist (joinNl (blockLines d)) := by
  rw [joinNl_block]
  have h1 : d.Sublist (lc "  " ++ d) := List.sublist_append_right _ _
  have h2 : d.Sublist ((lc "  " ++ d) ++ '\n' :: (lc "EXCEPTION" ++ '\n' ::
      (lc "  WHEN duplicate_object THEN null;" ++ '\n' :: lc "END $$;"))) :=
    h1.trans (List.sublist_append_left _ _)
  exact (List.Sublist.cons '\n' h2).trans (List.sublist_append_right _ _)

theorem enumWrap_ne_nil (ls : List (List Char)) (h : ls ≠ []) : (enumWrap ls).1 ≠ [] := by
  cases ls with
  | nil => exact absurd rfl h
  | cons l rest =>
    by_cases ht : typeLineMatch l = true
    · rw [enumWrap_cons_pos l rest ht]; simp [blockLines]
    · rw [enumWrap_cons_neg l rest (by simpa using ht)]; simp

theorem enumWrap_sub : ∀ (n : Nat) (ls : List (List Char)), ls.length ≤ n →
    (joinNl ls).Sublist (joinNl (enumWrap ls).1) := by
  intro n
  induction n with
  | zero =>
    intro ls h
    cases ls with
    | nil => simp [enumWrap_nil]
    | cons l rest => simp at h
  | succ n ih =>
    intro ls h
    cases ls with
    | nil => simp [enumWrap_nil]
    | cons l rest =>
      by_cases ht : typeLineMatch l = true
      · rw [enumWrap_cons_pos l rest ht]
        have hsplit := collectSemi_split l rest
        have hlist : l :: rest = (l :: (collectSemi l rest).1) ++ (collectSemi l rest).2 := by
          rw [List.cons_append, hsplit]
        rw [hlist]
        by_cases hrem : (collectSemi l rest).2 = []
        · rw [hrem, enumWrap_nil]
          simp only [List.append_nil]
          exact sub_block (joinNl (l :: (collectSemi l rest).1))
        · have hout := enumWrap_ne_nil _ hrem
          rw [joinNl_append _ _ (by simp) hrem,
            joinNl_append (blockLines _) _ (by simp [blockLines]) hout]
          refine List.Sublist.append (sub_block _) (List.Sublist.cons₂ '\n' ?_)
          refine ih _ ?_
          have hle := collectSemi_rest_le l rest
          simp only [List.length_cons] at h
          omega
      · rw [enumWrap_cons_neg l rest (by simpa using ht)]
        by_cases hrest : rest = []
        · subst hrest; simp [enumWrap_nil]
        · have hout := enumWrap_ne_nil rest hrest
          rw [joinNl_cons l rest hrest, joinNl_cons l _ hout]
          refine List.Sublist.append (List.Sublist.refl l) (List.Sublist.cons₂ '\n' ?_)
          refine ih rest ?_
          simp only [List.length_cons] at h
          omega

theorem enumWrap_marker : ∀ (n : Nat) (ls : List (List Char)), ls.length ≤ n →
    (enumWrap ls).2 = true →
    occursIn (lc "DO $$ BEGIN") (joinNl (enumWrap ls).1) = true := by
  intro n
  induction n with
  | zero =>
    intro ls h hw
    cases ls with
    | nil => rw [enumWrap_nil] at hw; simp at hw
    | cons l rest => simp at h
  | succ n ih =>
    intro ls h hw
    cases ls with
    | nil => rw [enumWrap_nil] at hw; simp at hw
    | cons l rest =>
      by_cases ht : typeLineMatch l = true
      · rw [enumWrap_cons_pos l rest ht]
        by_cases hrem : (collectSemi l rest).2 = []
        · rw [hrem, enumWrap_nil]
          simp only [List.append_nil]
          rw [joinNl_block]
          exact occursIn_of_pre (isPrefixOf_append_self _ _)
        · have hout := enumWrap_ne_nil _ hrem
          rw [joinNl_append (blockLines _) _ (by simp [blockLines]) hout, joinNl_block]
          refine occursIn_of_pre ?_
          rw [List.append_assoc]
          exact isPrefixOf_append_self _ _
      · rw [enumWrap_cons_neg l rest (by simpa using ht)] at hw ⊢
        have hrest : rest ≠ [] := by
          intro hr; subst hr; rw [enumWrap_nil] at hw; simp at hw
        have hout := enumWrap_ne_nil rest hrest
        rw [joinNl_cons l _ hout]
        have hrec := ih rest (by simp only [List.length_cons] at h; omega) (by simpa using hw)
        have h2 : l ++ '\n' :: joinNl (enumWrap rest).1 =
            (l ++ ['\n']) ++ joinNl (enumWrap rest).1 := by simp
        rw [h2]
        exact occursIn_append_right _ _ _ hrec

/-! The per-file invariant: content only grows, and the modified flag tracks
whether the content changed. -/

theorem sub_length_lt {a b : List Char} (h : a.Sublist b) (hne : b ≠ a) :
    a.length < b.length := by
  rcases Nat.lt_or_ge a.length b.length with hlt | hge
  · exact hlt
  · have heq : a.length = b.length := le_antisymm h.length_le hge
    exact absurd (h.eq_of_length heq).symm hne

/-- Invariant threaded through the rule pipeline: the original content stays a
sublist of the current content, and the modified flag is set exactly when the
current content differs from the original. -/
def Good (c0 : List Char) (st : List Char × Bool) : Prop :=
  c0.Sublist st.1 ∧ (st.2 = true ↔ st.1 ≠ c0)

theorem applyRule_good (rule : List Char → List Char)
    (hs : ∀ x : List Char, x.Sublist (rule x)) (c0 : List Char) (st : List Char × Bool)
    (hg : Good c0 st) : Good c0 (applyRule rule st) := by
  obtain ⟨h1, h2⟩ := hg
  constructor
  · exact h1.trans (hs st.1)
  · simp only [applyRule, Bool.or_eq_true, Bool.not_eq_true', beq_eq_false_iff_ne]
    constructor
    · rintro (hm | hne)
      · have hne0 : st.1 ≠ c0 := h2.mp hm
        have hlt : c0.length < st.1.length := sub_length_lt h1 hne0
        intro heq
        have hle := (hs st.1).length_le
        have := congrArg List.length heq
        omega
      · have hlt : st.1.length < (rule st.1).length := sub_length_lt (hs st.1) hne
        have hle := h1.length_le
        intro heq
        have := congrArg List.length heq
        omega
    · intro hne
      by_cases he : rule st.1 = st.1
      · exact Or.inl (h2.mpr (by rwa [he] at hne))
      · exact Or.inr he

theorem enumStep_good (c0 : List Char) (st : List Char × Bool)
    (hg : Good c0 st) : Good c0 (enumStep st) := by
  obtain ⟨h1, h2⟩ := hg
  unfold enumStep
  by_cases hgd : (occursIn (lc "CREATE TYPE") st.1 &&
      !occursIn (lc "DO $$ BEGIN") st.1) = true
  · rw [if_pos hgd]
    obtain ⟨hct, hdo⟩ := (Bool.and_eq_true ..).mp hgd
    have hdo' : occursIn (lc "DO $$ BEGIN") st.1 = false := by simpa using hdo
    have hsub : st.1.Sublist (joinNl (enumWrap (splitNl st.1)).1) := by
      have := enumWrap_sub (splitNl st.1).length (splitNl st.1) le_rfl
      rwa [splitNl_join st.1] at this
    refine ⟨h1.trans hsub, ?_⟩
    cases hw : (enumWrap (splitNl st.1)).2 with
    | false =>
      have hid : (enumWrap (splitNl st.1)).1 = splitNl st.1 := enumWrap_not_wrapped _ hw
      simp only [hw, hid, splitNl_join st.1, Bool.or_false]
      exact h2
    | true =>
      have hmark := enumWrap_marker (splitNl st.1).length (splitNl st.1) le_rfl hw
      have hnew : joinNl (enumWrap (splitNl st.1)).1 ≠ st.1 := by
        intro he
        rw [he, hdo'] at hmark
        exact Bool.false_ne_true hmark
      simp only [hw, Bool.or_true]
      constructor
      · intro _
        by_cases hc : st.1 = c0
        · rw [← hc]; exact hnew
        · have hlen : c0.length < st.1.length := sub_length_lt h1 hc
          intro heq
          have hle := hsub.length_le
          have := congrArg List.length heq
          omega
      · intro _; trivial
  · rw [if_neg hgd]
    exact ⟨h1, h2⟩

theorem process_good (c : List Char) : Good c (process_migration_file c) := by
  unfold process_migration_file
  refine enumStep_good c _ ?_
  refine applyRule_good indexSub indexSub_sub c _ ?_
  refine applyRule_good tableSub tableSub_sub c _ ?_
  refine applyRule_good triggerSub triggerSub_sub c _ ?_
  refine applyRule_good policySub policySub_sub c _ ?_
  exact ⟨List.Sublist.refl c, by simp⟩

/-! Decomposition facts used for the enum-rule claims. -/

theorem pyStrip_decomp (l : List Char) :
    l = l.takeWhile isWs ++ pyStrip l ++
      ((l.dropWhile isWs).reverse.takeWhile isWs).reverse := by
  conv_lhs => rw [← List.takeWhile_append_dropWhile isWs l]
  rw [List.append_assoc]
  congr 1
  conv_lhs => rw [← List.reverse_reverse (List.dropWhile isWs l),
    ← List.takeWhile_append_dropWhile isWs (List.dropWhile isWs l).reverse]
  rw [List.reverse_append]
  rfl

theorem typeLine_ct (l : List Char) (h : typeLineMatch l = true) :
    ∃ x y, l = x ++ lc "CREATE TYPE" ++ y := by
  unfold typeLineMatch at h
  dsimp only at h
  by_cases hp : (lc "CREATE TYPE public.").isPrefixOf (pyStrip l) = true
  · obtain ⟨r, hr⟩ := isPrefixOf_ex.mp hp
    refine ⟨List.takeWhile isWs l, lc " public." ++ r ++
      ((List.dropWhile isWs l).reverse.takeWhile isWs).reverse, ?_⟩
    conv_lhs => rw [pyStrip_decomp l]
    rw [hr]
    have hsplit : lc "CREATE TYPE public." = lc "CREATE TYPE" ++ lc " public." := by decide
    rw [hsplit]
    simp [List.append_assoc]
  · rw [if_neg hp] at h
    exact absurd h (by simp)

theorem mem_joinNl (l : List Char) (L : List (List Char)) (h : l ∈ L) :
    ∃ x y, joinNl L = x ++ l ++ y := by
  induction L with
  | nil => simp at h
  | cons a L' ih =>
    rcases List.mem_cons.mp h with rfl | hmem
    · cases L' with
      | nil => exact ⟨[], [], by simp [joinNl]⟩
      | cons b bs =>
        refine ⟨[], '\n' :: joinNl (b :: bs), ?_⟩
        rw [joinNl_cons l (b :: bs) (by simp)]
        simp
    · obtain ⟨x, y, hxy⟩ := ih hmem
      have hL' : L' ≠ [] := by
        intro hh; subst hh; simp at hmem
      refine ⟨a ++ '\n' :: x, y, ?_⟩
      rw [joinNl_cons a L' hL', hxy]
      simp [List.append_assoc]

theorem occursIn_of_decomp (pat s : List Char) (h : ∃ x y, s = x ++ pat ++ y) :
    occursIn pat s = true := by
  obtain ⟨x, y, rfl⟩ := h
  exact occursIn_mid pat x y

/-! Claims settled by direct evaluation of the embedded code. -/

/-- C1: the five-rule pipeline is not idempotent.  On
`CREATE INDEX idx ON t (x);` the first pass inserts `IF NOT EXISTS`, but the
second pass matches `CREATE INDEX IF` (the `\S+` group stops at the first
space, so the matched text never contains `IF NOT EXISTS`) and inserts the
guard again, reporting a modification. -/
theorem C1_second_pass_not_noop :
    (process_migration_file (lc "CREATE INDEX idx ON t (x);")).1 =
      lc "CREATE INDEX IF NOT EXISTS idx ON t (x);" ∧
    (process_migration_file (lc "CREATE INDEX IF NOT EXISTS idx ON t (x);")).2 = true ∧
    (process_migration_file (lc "CREATE INDEX IF NOT EXISTS idx ON t (x);")).1 =
      lc "CREATE INDEX IF NOT EXISTS IF NOT EXISTS idx ON t (x);" :=
  ⟨by decide, by decide, by decide⟩

/-- C2: the index rule does not leave statements that already contain
`IF NOT EXISTS` byte-identical: its match stops at the first token after
`INDEX`, so the `IF NOT EXISTS` guard check never fires and a duplicate is
inserted.  The table rule does leave guarded statements unchanged (its
pattern requires `public.` directly after `CREATE TABLE `), and both rules
rewrite unguarded statements as described. -/
theorem C2_index_rule_reinserts :
    indexSub (lc "CREATE UNIQUE INDEX IF NOT EXISTS idx_x ON t (x);") =
      lc "CREATE UNIQUE INDEX IF NOT EXISTS IF NOT EXISTS idx_x ON t (x);" ∧
    indexSub (lc "CREATE INDEX IF NOT EXISTS idx_x ON t (x);") =
      lc "CREATE INDEX IF NOT EXISTS IF NOT EXISTS idx_x ON t (x);" ∧
    tableSub (lc "CREATE TABLE IF NOT EXISTS public.users (id int);") =
      lc "CREATE TABLE IF NOT EXISTS public.users (id int);" ∧
    indexSub (lc "CREATE UNIQUE INDEX idx_x ON t (x);") =
      lc "CREATE UNIQUE INDEX IF NOT EXISTS idx_x ON t (x);" ∧
    tableSub (lc "CREATE TABLE public.users (id int);") =
      lc "CREATE TABLE IF NOT EXISTS public.users (id int);" :=
  ⟨by decide, by decide, by decide, by decide, by decide⟩

/-- C4 counterexample: a trigger whose event clause contains a newline in the
middle (`INSERT OR¶UPDATE`) is not matched, because `.` does not cross a
newline without `re.DOTALL`; the rule inserts no DROP and leaves the content
unchanged, contrary to the claim that the clause may span multiple lines. -/
theorem C4_newline_clause_not_matched :
    triggerSub (lc "CREATE TRIGGER trg BEFORE INSERT OR\nUPDATE ON tbl;") =
      lc "CREATE TRIGGER trg BEFORE INSERT OR\nUPDATE ON tbl;" := by
  decide

/-- C7: the modified flag returned by `process_migration_file` is set exactly
when the content changed, the write-back happens exactly in that case (and
writes the transformed content), and the returned Boolean reports whether a
write occurred. -/
theorem C7_return_iff_write (c : List Char) :
    ((process_migration_file c).2 = true ↔ (process_migration_file c).1 ≠ c) ∧
    (process_result c).1 = (if (process_migration_file c).1 = c then none
      else some (process_migration_file c).1) ∧
    ((process_result c).2 = true ↔ (process_result c).1 ≠ none) := by
  have hg := process_good c
  refine ⟨hg.2, ?_, ?_⟩
  · unfold process_result
    dsimp only
    by_cases hch : (process_migration_file c).1 = c
    · rw [if_pos hch]
      have hb : (process_migration_file c).2 = false := by
        cases hb : (process_migration_file c).2
        · rfl
        · exact absurd (hg.2.mp hb) (by simp [hch])
      simp [hb]
    · rw [if_neg hch]
      have hb : (process_migration_file c).2 = true := hg.2.mpr hch
      simp [hb]
  · unfold process_result
    dsimp only
    cases hb : (process_migration_file c).2 <;> simp [hb]

/-- C9: every rule only inserts characters, so the original content is a
subsequence of the transformed content. -/
theorem C9_content_only_grows (c : List Char) :
    c.Sublist (process_migration_file c).1 :=
  (process_good c).1

/-- C6: an exception while reading, transforming or writing one file is
caught at the per-file boundary: the modified counter for the whole batch is
the same as if the failing file were dropped (the remaining files are all
still processed), and the run still exits 0. -/
theorem C6_per_file_errors_contained (l r : List (Except String (List Char) × Bool))
    (f : Except String (List Char) × Bool) (e : String)
    (hf : processOne f.1 f.2 = .error e) :
    mainResult true (l ++ f :: r) = mainResult true (l ++ r) ∧
    (mainResult true (l ++ f :: r)).1 = 0 := by
  constructor
  · unfold mainResult runBatch
    simp only [if_pos, List.foldl_append, List.foldl_cons, hf]
  · simp [mainResult]

/-- C6 witness at a concrete batch: an unreadable file between two good files
changes nothing about the count and the run exits 0. -/
theorem C6_witness :
    mainResult true [((Except.error "io error" : Except String (List Char)), true),
        ((Except.ok (lc "CREATE TABLE public.t (x int);") : Except String (List Char)), true)] =
      mainResult true [((Except.ok (lc "CREATE TABLE public.t (x int);") :
        Except String (List Char)), true)] ∧
    (mainResult true [((Except.error "io error" : Except String (List Char)), true),
        ((Except.ok (lc "CREATE TABLE public.t (x int);") : Except String (List Char)), true)]).1 = 0 :=
  C6_per_file_errors_contained []
    [((Except.ok (lc "CREATE TABLE public.t (x int);") : Except String (List Char)), true)]
    ((Except.error "io error" : Except String (List Char)), true) "io error" rfl

/-- C8: a missing migrations directory yields exit status 1 with no file
processed; in every other case the exit status is 0 no matter what the
per-file outcomes were. -/
theorem C8_exit_status (files : List (Except String (List Char) × Bool)) :
    mainResult false files = (1, 0) ∧ (mainResult true files).1 = 0 := by
  constructor
  · simp [mainResult]
  · simp [mainResult]

/-- C5: a file with a single unwrapped line-anchored `CREATE TYPE ... AS ENUM`
statement (terminated on its own line) and no `DO $$ BEGIN` marker has that
statement's line replaced by the `DO $$ BEGIN ... EXCEPTION ... END $$;` block
containing the line verbatim; and a file already containing `DO $$ BEGIN`
anywhere is left entirely unchanged by the enum rule. -/
theorem C5_enum_wrapper :
    (∀ (A B : List (List Char)) (stmt : List Char) (mfl : Bool),
      (∀ l ∈ A, typeLineMatch l = false) →
      (∀ l ∈ B, typeLineMatch l = false) →
      typeLineMatch stmt = true →
      stmt.contains ';' = true →
      (∀ l ∈ A, '\n' ∉ l) → '\n' ∉ stmt → (∀ l ∈ B, '\n' ∉ l) →
      occursIn (lc "DO $$ BEGIN") (joinNl (A ++ stmt :: B)) = false →
      enumStep (joinNl (A ++ stmt :: B), mfl) =
        (joinNl (A ++ blockLines stmt ++ B), true)) ∧
    (∀ (c : List Char) (mfl : Bool), occursIn (lc "DO $$ BEGIN") c = true →
      enumStep (c, mfl) = (c, mfl)) := by
  constructor
  · intro A B stmt mfl hA hB hstmt hsemi hnlA hnlS hnlB hdo
    have hct : occursIn (lc "CREATE TYPE") (joinNl (A ++ stmt :: B)) = true := by
      obtain ⟨x, y, hxy⟩ := typeLine_ct stmt hstmt
      obtain ⟨u, v, huv⟩ := mem_joinNl stmt (A ++ stmt :: B) (by simp)
      refine occursIn_of_decomp _ _ ⟨u ++ x, y ++ v, ?_⟩
      rw [huv, hxy]
      simp [List.append_assoc]
    unfold enumStep
    rw [if_pos (by dsimp only; rw [hct, hdo]; rfl)]
    dsimp only
    have hsplit : splitNl (joinNl (A ++ stmt :: B)) = A ++ stmt :: B := by
      refine splitNl_joinNl _ (by simp) ?_
      intro l hl
      rcases List.mem_append.mp hl with h1 | h2
      · exact hnlA l h1
      · rcases List.mem_cons.mp h2 with rfl | h3
        · exact hnlS
        · exact hnlB l h3
    rw [hsplit, enumWrap_skip A (stmt :: B) hA, enumWrap_cons_pos stmt B hstmt,
      collectSemi_stop stmt B hsemi, enumWrap_no_match B hB]
    simp [joinNl, List.append_assoc]
  · intro c mfl h
    unfold enumStep
    rw [if_neg (by dsimp only; rw [h]; simp)]

/-- C5 witness at a concrete file: the statement line between two other lines
is wrapped, and a file already containing `DO $$ BEGIN` is untouched. -/
theorem C5_witness :
    enumStep (joinNl ([lc "SELECT 1;"] ++ lc "CREATE TYPE public.s AS ENUM ('a');" ::
        [lc "SELECT 2;"]), false) =
      (joinNl ([lc "SELECT 1;"] ++ blockLines (lc "CREATE TYPE public.s AS ENUM ('a');") ++
        [lc "SELECT 2;"]), true) ∧
    enumStep (lc "DO $$ BEGIN x; CREATE TYPE public.s AS ENUM ('a');", true) =
      (lc "DO $$ BEGIN x; CREATE TYPE public.s AS ENUM ('a');", true) :=
  ⟨C5_enum_wrapper.1 [lc "SELECT 1;"] [lc "SELECT 2;"]
      (lc "CREATE TYPE public.s AS ENUM ('a');") false
      (by decide) (by decide) (by decide) (by decide) (by decide) (by decide) (by decide)
      (by decide),
    C5_enum_wrapper.2 (lc "DO $$ BEGIN x; CREATE TYPE public.s AS ENUM ('a');") true
      (by decide)⟩

/-- C10: a line-anchored `CREATE TYPE ... AS ENUM` statement never terminated
by a semicolon line is still wrapped: the collection loop swallows every
remaining line of the file into the `DO $$ BEGIN ... END $$;` block. -/
theorem C10_unterminated_collects_to_eof (A B : List (List Char))
    (stmt : List Char) (mfl : Bool)
    (hA : ∀ l ∈ A, typeLineMatch l = false)
    (hstmt : typeLineMatch stmt = true)
    (hsemi : stmt.contains ';' = false)
    (hBsemi : ∀ l ∈ B, l.contains ';' = false)
    (hnlA : ∀ l ∈ A, '\n' ∉ l) (hnlS : '\n' ∉ stmt) (hnlB : ∀ l ∈ B, '\n' ∉ l)
    (hdo : occursIn (lc "DO $$ BEGIN") (joinNl (A ++ stmt :: B)) = false) :
    enumStep (joinNl (A ++ stmt :: B), mfl) =
      (joinNl (A ++ blockLines (joinNl (stmt :: B))), true) := by
  have hct : occursIn (lc "CREATE TYPE") (joinNl (A ++ stmt :: B)) = true := by
    obtain ⟨x, y, hxy⟩ := typeLine_ct stmt hstmt
    obtain ⟨u, v, huv⟩ := mem_joinNl stmt (A ++ stmt :: B) (by simp)
    refine occursIn_of_decomp _ _ ⟨u ++ x, y ++ v, ?_⟩
    rw [huv, hxy]
    simp [List.append_assoc]
  unfold enumStep
  rw [if_pos (by dsimp only; rw [hct, hdo]; rfl)]
  dsimp only
  have hsplit : splitNl (joinNl (A ++ stmt :: B)) = A ++ stmt :: B := by
    refine splitNl_joinNl _ (by simp) ?_
    intro l hl
    rcases List.mem_append.mp hl with h1 | h2
    · exact hnlA l h1
    · rcases List.mem_cons.mp h2 with rfl | h3
      · exact hnlS
      · exact hnlB l h3
  rw [hsplit, enumWrap_skip A (stmt :: B) hA, enumWrap_cons_pos stmt B hstmt,
    collectSemi_all stmt B hsemi hBsemi, enumWrap_nil]
  simp

/-- C10 witness: a two-line `CREATE TYPE` with no semicolon anywhere is
wrapped with the rest of the file inside the block. -/
theorem C10_witness :
    enumStep (joinNl ([] ++ lc "CREATE TYPE public.s AS ENUM (" :: [lc "  'a'"]), false) =
      (joinNl ([] ++ blockLines (joinNl (lc "CREATE TYPE public.s AS ENUM (" ::
        [lc "  'a'"]))), true) :=
  C10_unterminated_collects_to_eof [] [lc "  'a'"] (lc "CREATE TYPE public.s AS ENUM (")
    false (by decide) (by decide) (by decide) (by decide) (by decide) (by decide)
    (by decide) (by decide)

/-! The policy rule on a file shaped as the claim describes. -/

/-- A `CREATE POLICY "p" ON t` statement in the single-space format of the
spec. -/
def createPol (p t : List Char) : List Char :=
  polLit ++ p ++ '\"' :: ' ' :: 'O' :: 'N' :: ' ' :: t

/-- The guard statement `add_drop_policy` checks for and inserts. -/
def dropPol (p t : List Char) : List Char :=
  lc "DROP POLICY IF EXISTS \"" ++ p ++ lc "\" ON " ++ t ++ lc ";"

theorem policyM_none (s : List Char) (h : polLit.isPrefixOf s = false) :
    policyM s = none := by
  unfold policyM
  rw [if_neg (by rw [h]; simp)]

theorem policyM_none_drop (v : List Char)
    (h : ∀ k, k < v.length → polLit.isPrefixOf (v.drop k) = false) :
    ∀ (k : Nat) (_pc : Option Char), policyM (v.drop k) = none := by
  intro k _pc
  by_cases hk : k < v.length
  · exact policyM_none _ (h k hk)
  · have hv : v.drop k = [] := List.drop_eq_nil_of_le (by omega)
    rw [hv]
    exact policyM_none [] (by decide)

theorem policyM_at (p t post : List Char)
    (hp1 : p ≠ []) (hp2 : ∀ c ∈ p, (c == '\"') = false)
    (ht1 : t ≠ []) (ht2 : ∀ c ∈ t, isWs c = false)
    (hpost : post = [] ∨ ∃ d post', post = d :: post' ∧ isWs d = true) :
    policyM (createPol p t ++ post) = some ((createPol p t).length, p, t) := by
  obtain ⟨c0, t', rfl⟩ : ∃ c0 t', t = c0 :: t' := by
    cases t with
    | nil => exact absurd rfl ht1
    | cons a b => exact ⟨a, b, rfl⟩
  have hc0 : isWs c0 = false := ht2 c0 (by simp)
  have hsp : isWs ' ' = true := by decide
  have hO : isWs 'O' = false := by decide
  have hs : createPol p (c0 :: t') ++ post =
      polLit ++ (p ++ '\"' :: ' ' :: 'O' :: 'N' :: ' ' :: ((c0 :: t') ++ post)) := by
    simp [createPol, List.append_assoc]
  rw [hs]
  unfold policyM
  rw [if_pos (isPrefixOf_append_self _ _)]
  dsimp only
  rw [List.drop_left]
  have htw : (p ++ '\"' :: ' ' :: 'O' :: 'N' :: ' ' :: ((c0 :: t') ++ post)).takeWhile
      (fun c => !(c == '\"')) = p := by
    rw [takeWhile_append_all _ _ _ (fun a ha => by simp [hp2 a ha]),
      takeWhile_cons_neg _ _ _ (by decide)]
    simp
  have hdw : (p ++ '\"' :: ' ' :: 'O' :: 'N' :: ' ' :: ((c0 :: t') ++ post)).dropWhile
      (fun c => !(c == '\"')) = '\"' :: ' ' :: 'O' :: 'N' :: ' ' :: ((c0 :: t') ++ post) := by
    rw [dropWhile_append_all _ _ _ (fun a ha => by simp [hp2 a ha]),
      dropWhile_cons_neg _ _ _ (by decide)]
  rw [htw, hdw, if_neg hp1]
  dsimp only
  have hw1 : (' ' :: 'O' :: 'N' :: ' ' :: ((c0 :: t') ++ post)).takeWhile isWs = [' '] := by
    simp [List.takeWhile_cons, hsp, hO]
  have hd1 : (' ' :: 'O' :: 'N' :: ' ' :: ((c0 :: t') ++ post)).dropWhile isWs =
      'O' :: 'N' :: ' ' :: ((c0 :: t') ++ post) := by
    simp [List.dropWhile_cons, hsp, hO]
  rw [hw1, hd1, if_neg (by simp)]
  have hON : lc "ON" = ['O', 'N'] := by decide
  rw [if_pos (by rw [hON]; simp [List.isPrefixOf])]
  have hdrop2 : ('O' :: 'N' :: ' ' :: ((c0 :: t') ++ post)).drop 2 =
      ' ' :: ((c0 :: t') ++ post) := rfl
  rw [hdrop2]
  have hw2 : (' ' :: ((c0 :: t') ++ post)).takeWhile isWs = [' '] := by
    simp [List.takeWhile_cons, hsp, List.cons_append, hc0]
  have hd2 : (' ' :: ((c0 :: t') ++ post)).dropWhile isWs = (c0 :: t') ++ post := by
    simp [List.dropWhile_cons, hsp, List.cons_append, hc0]
  rw [hw2, hd2, if_neg (by simp)]
  have htab : ((c0 :: t') ++ post).takeWhile (fun c => !isWs c) = c0 :: t' := by
    rw [takeWhile_append_all _ _ _ (fun a ha => by simp [ht2 a ha])]
    rcases hpost with rfl | ⟨d, post', rfl, hd⟩
    · simp
    · rw [takeWhile_cons_neg _ _ _ (by simp [hd])]
      simp
  rw [htab, if_neg (by simp)]
  rw [List.drop_left]
  have harg : ∀ (x y : Nat), x = y →
      (some (x, p, c0 :: t') : Option (Nat × List Char × List Char)) =
        some (y, p, c0 :: t') := by
    intro x y h
    rw [h]
  apply harg
  simp [createPol, List.length_append, List.length_cons]
  omega

/-- C3: on a file containing exactly one `CREATE POLICY "p" ON t` (the
leading literal of the policy pattern occurs nowhere in the surrounding
text), the policy rule inserts `DROP POLICY IF EXISTS "p" ON t;` on its own
line immediately before the statement, unless that exact drop statement
already occurs in the last 200 characters before the match, in which case the
content is unchanged. -/
theorem C3_policy_rule (pre p t post : List Char)
    (hp1 : p ≠ []) (hp2 : ∀ c ∈ p, (c == '\"') = false)
    (ht1 : t ≠ []) (ht2 : ∀ c ∈ t, isWs c = false)
    (hpost : post = [] ∨ ∃ d post', post = d :: post' ∧ isWs d = true)
    (hpre : ∀ k, k < pre.length →
      polLit.isPrefixOf ((pre ++ (createPol p t ++ post)).drop k) = false)
    (hpostN : ∀ k, k < post.length → polLit.isPrefixOf (post.drop k) = false) :
    policySub (pre ++ createPol p t ++ post) =
      pre ++ (if occursIn (dropPol p t) (lastN 200 pre) = true then createPol p t
        else dropPol p t ++ '\n' :: createPol p t) ++ post := by
  have h15 : polLit.length = 15 := by decide
  have hassoc : pre ++ createPol p t ++ post = pre ++ (createPol p t ++ post) := by
    simp [List.append_assoc]
  rw [hassoc]
  unfold policySub
  have hlen : (pre ++ (createPol p t ++ post)).length =
      pre.length + (createPol p t ++ post).length := by
    simp [List.length_append]
  rw [hlen]
  rw [reSubAux_skip _ _ _ pre (createPol p t ++ post) _ none 0
    (fun k hk pc => policyM_none _ (hpre k hk))]
  have hclen : 1 ≤ (createPol p t).length := by
    simp [createPol, List.length_append, h15]
    omega
  obtain ⟨fu, hfu⟩ : ∃ fu, (createPol p t ++ post).length = fu + 1 :=
    ⟨(createPol p t ++ post).length - 1, by
      have h := hclen
      simp only [List.length_append]
      omega⟩
  rw [hfu]
  have hCne : createPol p t ++ post ≠ [] := by
    intro hC
    rw [hC] at hfu
    simp at hfu
  rw [reSubAux_match _ _ _ fu _ _ (createPol p t ++ post) (createPol p t).length (p, t)
    (policyM_at p t post hp1 hp2 ht1 ht2 hpost) hclen hCne]
  rw [List.take_left, List.drop_left]
  rw [reSubAux_id _ _ _ fu post _ _ (fun k pc => policyM_none_drop post hpostN k pc)]
  have htake : (pre ++ (createPol p t ++ post)).take (0 + pre.length) = pre := by
    rw [Nat.zero_add]
    exact List.take_left pre _
  rw [htake]
  have hrepl : add_drop_policy (lastN 200 pre) (createPol p t) (p, t) =
      if occursIn (dropPol p t) (lastN 200 pre) = true then createPol p t
      else dropPol p t ++ '\n' :: createPol p t := by
    unfold add_drop_policy dropPol
    rfl
  rw [hrepl]
  simp [List.append_assoc]

/-- C3 witness: a file that is exactly one `CREATE POLICY "p" ON t` preceded
by a comment line gets the drop guard inserted directly before the
statement. -/
theorem C3_witness :
    policySub (lc "-- x\n" ++ createPol (lc "p") (lc "t") ++ []) =
      lc "-- x\n" ++ (if occursIn (dropPol (lc "p") (lc "t"))
          (lastN 200 (lc "-- x\n")) = true then createPol (lc "p") (lc "t")
        else dropPol (lc "p") (lc "t") ++ '\n' :: createPol (lc "p") (lc "t")) ++ [] :=
  C3_policy_rule (lc "-- x\n") (lc "p") (lc "t") [] (by decide) (by decide) (by decide)
    (by decide) (Or.inl rfl) (by decide) (by decide)

/-! The trigger rule on a statement shaped as the (amended) claim describes. -/

/-- A trigger statement with single spaces after the name and the timing
keyword, an arbitrary non-empty whitespace run `w3` before `ON` (this is the
only place, besides the run after the timing keyword, where a newline can
occur, since `.` does not match newlines), and a single space before the
table name. -/
def createTrig (name timing clause w3 table : List Char) : List Char :=
  trigLit ++ name ++ ' ' :: timing ++ ' ' :: clause ++ w3 ++ 'O' :: 'N' :: ' ' :: table

/-- The guard statement `add_drop_trigger` checks for and inserts. -/
def dropTrig (name table : List Char) : List Char :=
  lc "DROP TRIGGER IF EXISTS " ++ name ++ lc " ON " ++ table ++ lc ";"

theorem triggerM_none (s : List Char) (h : trigLit.isPrefixOf s = false) :
    triggerM s = none := by
  unfold triggerM
  rw [if_neg (by rw [h]; simp)]

theorem triggerM_none_drop (v : List Char)
    (h : ∀ k, k < v.length → trigLit.isPrefixOf (v.drop k) = false) :
    ∀ (k : Nat), triggerM (v.drop k) = none := by
  intro k
  by_cases hk : k < v.length
  · exact triggerM_none _ (h k hk)
  · have hv : v.drop k = [] := List.drop_eq_nil_of_le (by omega)
    rw [hv]
    exact triggerM_none [] (by decide)

theorem tryCON_at (w3 table post : List Char)
    (hw1 : w3 ≠ []) (hw2 : ∀ c ∈ w3, isWs c = true)
    (ht1 : table ≠ []) (ht2 : ∀ c ∈ table, isWs c = false)
    (hpost : post = [] ∨ ∃ d post', post = d :: post' ∧ isWs d = true) :
    tryCON (w3 ++ 'O' :: 'N' :: ' ' :: (table ++ post)) = some (post, table) := by
  obtain ⟨c0, t', rfl⟩ : ∃ c0 t', table = c0 :: t' := by
    cases table with
    | nil => exact absurd rfl ht1
    | cons a b => exact ⟨a, b, rfl⟩
  have hc0 : isWs c0 = false := ht2 c0 (by simp)
  have hsp : isWs ' ' = true := by decide
  have hO : isWs 'O' = false := by decide
  unfold tryCON
  dsimp only
  have hw : (w3 ++ 'O' :: 'N' :: ' ' :: ((c0 :: t') ++ post)).takeWhile isWs = w3 := by
    rw [takeWhile_append_all _ _ _ hw2, takeWhile_cons_neg _ _ _ hO]
    simp
  have hdw : (w3 ++ 'O' :: 'N' :: ' ' :: ((c0 :: t') ++ post)).dropWhile isWs =
      'O' :: 'N' :: ' ' :: ((c0 :: t') ++ post) := by
    rw [dropWhile_append_all _ _ _ hw2, dropWhile_cons_neg _ _ _ hO]
  rw [hw, hdw, if_neg hw1]
  have hON : lc "ON" = ['O', 'N'] := by decide
  rw [if_pos (by rw [hON]; simp [List.isPrefixOf])]
  have hdrop2 : ('O' :: 'N' :: ' ' :: ((c0 :: t') ++ post)).drop 2 =
      ' ' :: ((c0 :: t') ++ post) := rfl
  rw [hdrop2]
  have hw2' : (' ' :: ((c0 :: t') ++ post)).takeWhile isWs = [' '] := by
    simp [List.takeWhile_cons, hsp, List.cons_append, hc0]
  have hd2 : (' ' :: ((c0 :: t') ++ post)).dropWhile isWs = (c0 :: t') ++ post := by
    simp [List.dropWhile_cons, hsp, List.cons_append, hc0]
  rw [hw2', hd2, if_neg (by simp)]
  have htab : ((c0 :: t') ++ post).takeWhile (fun c => !isWs c) = c0 :: t' := by
    rw [takeWhile_append_all _ _ _ (fun a ha => by simp [ht2 a ha])]
    rcases hpost with rfl | ⟨d, post', rfl, hd⟩
    · simp
    · rw [takeWhile_cons_neg _ _ _ (by simp [hd])]
      simp
  rw [htab, if_neg (by simp), List.drop_left]

theorem searchB_tryCON (s : List Char) (r : List Char × List Char)
    (h : tryCON s = some r) : searchB s = some r := by
  cases s with
  | nil => rw [searchB, h]
  | cons c rest =>
    rw [searchB, h]

theorem searchB_skip (u v : List Char) (hu : '\n' ∉ u)
    (h : ∀ k, k < u.length → tryCON (u.drop k ++ v) = none) :
    searchB (u ++ v) = searchB v := by
  induction u with
  | nil => simp
  | cons c cu ih =>
    have h0 : tryCON (c :: (cu ++ v)) = none := by simpa using h 0 (by simp)
    have hc : c ≠ '\n' := fun hcc => hu (by simp [hcc])
    rw [List.cons_append, searchB, h0, if_neg hc]
    exact ih (fun hm => hu (by simp [hm]))
      (fun k hk => by simpa using h (k + 1) (by simp only [List.length_cons]; omega))

theorem trigTail_at (clause w3 table post : List Char)
    (hcl : ∃ c0 cl, clause = c0 :: cl ∧ isWs c0 = false)
    (hcn : '\n' ∉ clause)
    (hw1 : w3 ≠ []) (hw2 : ∀ c ∈ w3, isWs c = true)
    (ht1 : table ≠ []) (ht2 : ∀ c ∈ table, isWs c = false)
    (hpost : post = [] ∨ ∃ d post', post = d :: post' ∧ isWs d = true)
    (htail : ∀ k, k < clause.length →
      tryCON (clause.drop k ++ (w3 ++ 'O' :: 'N' :: ' ' :: (table ++ post))) = none) :
    trigTail (' ' :: (clause ++ (w3 ++ 'O' :: 'N' :: ' ' :: (table ++ post)))) =
      some (post, table) := by
  obtain ⟨c0, cl, rfl, hc0⟩ := hcl
  have hsp : isWs ' ' = true := by decide
  unfold trigTail
  dsimp only
  have hmax : ((' ' :: ((c0 :: cl) ++ (w3 ++ 'O' :: 'N' :: ' ' :: (table ++ post)))).takeWhile
      isWs).length = 1 := by
    simp [List.takeWhile_cons, hsp, List.cons_append, hc0]
  rw [hmax, if_neg (by omega)]
  show searchA _ (0 + 1) = _
  rw [searchA]
  have hdrop1 : (' ' :: ((c0 :: cl) ++ (w3 ++ 'O' :: 'N' :: ' ' :: (table ++ post)))).drop
      (0 + 1) = (c0 :: cl) ++ (w3 ++ 'O' :: 'N' :: ' ' :: (table ++ post)) := rfl
  rw [hdrop1]
  rw [searchB_skip (c0 :: cl) _ hcn htail]
  rw [searchB_tryCON _ _ (tryCON_at w3 table post hw1 hw2 ht1 ht2 hpost)]

theorem timingAt_at (timing R : List Char)
    (htim : timing = lc "BEFORE" ∨ timing = lc "AFTER" ∨ timing = lc "INSTEAD OF") :
    timingAt (timing ++ R) = some timing.length := by
  have hBA : (('B' : Char) == 'A') = false := by decide
  have hBI : (('B' : Char) == 'I') = false := by decide
  have hAI : (('A' : Char) == 'I') = false := by decide
  rcases htim with rfl | rfl | rfl
  · rw [timingAt, if_pos (isPrefixOf_append_self _ _)]
    decide
  · rw [timingAt]
    rw [if_neg (by
      have h1 : lc "BEFORE" = 'B' :: lc "EFORE" := by decide
      have h2 : lc "AFTER" ++ R = 'A' :: (lc "FTER" ++ R) := rfl
      rw [h1, h2]
      simp [List.isPrefixOf, hBA])]
    rw [if_pos (isPrefixOf_append_self _ _)]
    decide
  · rw [timingAt]
    rw [if_neg (by
      have h1 : lc "BEFORE" = 'B' :: lc "EFORE" := by decide
      have h2 : lc "INSTEAD OF" ++ R = 'I' :: (lc "NSTEAD OF" ++ R) := rfl
      rw [h1, h2]
      simp [List.isPrefixOf, hBI])]
    rw [if_neg (by
      have h1 : lc "AFTER" = 'A' :: lc "FTER" := by decide
      have h2 : lc "INSTEAD OF" ++ R = 'I' :: (lc "NSTEAD OF" ++ R) := rfl
      rw [h1, h2]
      simp [List.isPrefixOf, hAI])]
    rw [if_pos (isPrefixOf_append_self _ _)]
    decide

theorem timing_head (timing : List Char)
    (htim : timing = lc "BEFORE" ∨ timing = lc "AFTER" ∨ timing = lc "INSTEAD OF") :
    ∃ tc tl, timing = tc :: tl ∧ isWs tc = false := by
  rcases htim with rfl | rfl | rfl
  · exact ⟨'B', lc "EFORE", by decide, by decide⟩
  · exact ⟨'A', lc "FTER", by decide, by decide⟩
  · exact ⟨'I', lc "NSTEAD OF", by decide, by decide⟩

theorem triggerM_at (name timing clause w3 table post : List Char)
    (hn1 : name ≠ []) (hn2 : ∀ c ∈ name, isWs c = false)
    (htim : timing = lc "BEFORE" ∨ timing = lc "AFTER" ∨ timing = lc "INSTEAD OF")
    (hcl : ∃ c0 cl, clause = c0 :: cl ∧ isWs c0 = false)
    (hcn : '\n' ∉ clause)
    (hw1 : w3 ≠ []) (hw2 : ∀ c ∈ w3, isWs c = true)
    (ht1 : table ≠ []) (ht2 : ∀ c ∈ table, isWs c = false)
    (hpost : post = [] ∨ ∃ d post', post = d :: post' ∧ isWs d = true)
    (htail : ∀ k, k < clause.length →
      tryCON (clause.drop k ++ (w3 ++ 'O' :: 'N' :: ' ' :: (table ++ post))) = none) :
    triggerM (createTrig name timing clause w3 table ++ post) =
      some ((createTrig name timing clause w3 table).length, name, table) := by
  obtain ⟨tc, tl, htimeq, htc⟩ := timing_head timing htim
  have hsp : isWs ' ' = true := by decide
  have hs : createTrig name timing clause w3 table ++ post =
      trigLit ++ (name ++ ' ' :: (timing ++ ' ' ::
        (clause ++ (w3 ++ 'O' :: 'N' :: ' ' :: (table ++ post))))) := by
    simp [createTrig, List.append_assoc]
  rw [hs]
  unfold triggerM
  rw [if_pos (isPrefixOf_append_self _ _)]
  dsimp only
  rw [List.drop_left]
  have htw : (name ++ ' ' :: (timing ++ ' ' ::
      (clause ++ (w3 ++ 'O' :: 'N' :: ' ' :: (table ++ post))))).takeWhile
      (fun c => !isWs c) = name := by
    rw [takeWhile_append_all _ _ _ (fun a ha => by simp [hn2 a ha]),
      takeWhile_cons_neg _ _ _ (by simp [hsp])]
    simp
  have hdw : (name ++ ' ' :: (timing ++ ' ' ::
      (clause ++ (w3 ++ 'O' :: 'N' :: ' ' :: (table ++ post))))).dropWhile
      (fun c => !isWs c) = ' ' :: (timing ++ ' ' ::
      (clause ++ (w3 ++ 'O' :: 'N' :: ' ' :: (table ++ post)))) := by
    rw [dropWhile_append_all _ _ _ (fun a ha => by simp [hn2 a ha]),
      dropWhile_cons_neg _ _ _ (by simp [hsp])]
  rw [htw, hdw, if_neg hn1]
  have hw1' : (' ' :: (timing ++ ' ' ::
      (clause ++ (w3 ++ 'O' :: 'N' :: ' ' :: (table ++ post))))).takeWhile isWs = [' '] := by
    rw [htimeq]
    simp [List.takeWhile_cons, hsp, List.cons_append, htc]
  have hd1 : (' ' :: (timing ++ ' ' ::
      (clause ++ (w3 ++ 'O' :: 'N' :: ' ' :: (table ++ post))))).dropWhile isWs =
      timing ++ ' ' :: (clause ++ (w3 ++ 'O' :: 'N' :: ' ' :: (table ++ post))) := by
    rw [htimeq]
    simp [List.dropWhile_cons, hsp, List.cons_append, htc]
  rw [hw1', hd1, if_neg (by simp)]
  rw [timingAt_at timing _ htim]
  dsimp only
  rw [List.drop_left]
  rw [trigTail_at clause w3 table post hcl hcn hw1 hw2 ht1 ht2 hpost htail]
  dsimp only
  have harg : ∀ (x y : Nat), x = y →
      (some (x, name, table) : Option (Nat × List Char × List Char)) =
        some (y, name, table) := by
    intro x y h
    rw [h]
  apply harg
  simp [createTrig, List.length_append, List.length_cons]
  omega

/-- C4 (amended): the trigger rule matches every `CREATE TRIGGER` statement
whose event clause contains no newline in the lazily-matched part — a newline
may only sit in the whitespace runs adjacent to the timing keyword or to
`ON`, since `.` does not cross newlines — and inserts
`DROP TRIGGER IF EXISTS <name> ON <table>;` on its own line before the match
exactly when that drop statement does not occur in the preceding 200
characters. -/
theorem C4_trigger_rule (pre name timing clause w3 table post : List Char)
    (hn1 : name ≠ []) (hn2 : ∀ c ∈ name, isWs c = false)
    (htim : timing = lc "BEFORE" ∨ timing = lc "AFTER" ∨ timing = lc "INSTEAD OF")
    (hcl : ∃ c0 cl, clause = c0 :: cl ∧ isWs c0 = false)
    (hcn : '\n' ∉ clause)
    (hw1 : w3 ≠ []) (hw2 : ∀ c ∈ w3, isWs c = true)
    (ht1 : table ≠ []) (ht2 : ∀ c ∈ table, isWs c = false)
    (hpost : post = [] ∨ ∃ d post', post = d :: post' ∧ isWs d = true)
    (htail : ∀ k, k < clause.length →
      tryCON (clause.drop k ++ (w3 ++ 'O' :: 'N' :: ' ' :: (table ++ post))) = none)
    (hpre : ∀ k, k < pre.length → trigLit.isPrefixOf
      ((pre ++ (createTrig name timing clause w3 table ++ post)).drop k) = false)
    (hpostN : ∀ k, k < post.length → trigLit.isPrefixOf (post.drop k) = false) :
    triggerSub (pre ++ createTrig name timing clause w3 table ++ post) =
      pre ++ (if occursIn (dropTrig name table) (lastN 200 pre) = true
        then createTrig name timing clause w3 table
        else dropTrig name table ++ '\n' :: createTrig name timing clause w3 table) ++
        post := by
  have h15 : trigLit.length = 15 := by decide
  have hassoc : pre ++ createTrig name timing clause w3 table ++ post =
      pre ++ (createTrig name timing clause w3 table ++ post) := by
    simp [List.append_assoc]
  rw [hassoc]
  unfold triggerSub
  have hlen : (pre ++ (createTrig name timing clause w3 table ++ post)).length =
      pre.length + (createTrig name timing clause w3 table ++ post).length := by
    simp [List.length_append]
  rw [hlen]
  rw [reSubAux_skip _ _ _ pre (createTrig name timing clause w3 table ++ post) _ none 0
    (fun k hk pc => triggerM_none _ (hpre k hk))]
  have hclen : 1 ≤ (createTrig name timing clause w3 table).length := by
    simp [createTrig, List.length_append, h15]
    omega
  obtain ⟨fu, hfu⟩ : ∃ fu, (createTrig name timing clause w3 table ++ post).length =
      fu + 1 :=
    ⟨(createTrig name timing clause w3 table ++ post).length - 1, by
      have h := hclen
      simp only [List.length_append]
      omega⟩
  rw [hfu]
  have hCne : createTrig name timing clause w3 table ++ post ≠ [] := by
    intro hC
    rw [hC] at hfu
    simp at hfu
  rw [reSubAux_match _ _ _ fu _ _ (createTrig name timing clause w3 table ++ post)
    (createTrig name timing clause w3 table).length (name, table)
    (triggerM_at name timing clause w3 table post hn1 hn2 htim hcl hcn hw1 hw2 ht1 ht2
      hpost htail) hclen hCne]
  rw [List.take_left, List.drop_left]
  rw [reSubAux_id _ _ _ fu post _ _ (fun k pc => triggerM_none_drop post hpostN k)]
  have htake : (pre ++ (createTrig name timing clause w3 table ++ post)).take
      (0 + pre.length) = pre := by
    rw [Nat.zero_add]
    exact List.take_left pre _
  rw [htake]
  have hrepl : add_drop_trigger (lastN 200 pre) (createTrig name timing clause w3 table)
      (name, table) =
      if occursIn (dropTrig name table) (lastN 200 pre) = true
      then createTrig name timing clause w3 table
      else dropTrig name table ++ '\n' :: createTrig name timing clause w3 table := by
    unfold add_drop_trigger dropTrig
    rfl
  rw [hrepl]
  simp [List.append_assoc]

/-- C4 witness: a trigger split over two lines, with the newline sitting in
the whitespace run just before `ON`, is matched and gets its drop guard
inserted. -/
theorem C4_witness :
    triggerSub ([] ++ createTrig (lc "trg") (lc "BEFORE") (lc "UPDATE") ['\n']
        (lc "tbl") ++ []) =
      [] ++ (if occursIn (dropTrig (lc "trg") (lc "tbl")) (lastN 200 []) = true
        then createTrig (lc "trg") (lc "BEFORE") (lc "UPDATE") ['\n'] (lc "tbl")
        else dropTrig (lc "trg") (lc "tbl") ++ '\n' ::
          createTrig (lc "trg") (lc "BEFORE") (lc "UPDATE") ['\n'] (lc "tbl")) ++ [] :=
  C4_trigger_rule [] (lc "trg") (lc "BEFORE") (lc "UPDATE") ['\n'] (lc "tbl") []
    (by decide) (by decide) (Or.inl rfl) ⟨'U', lc "PDATE", by decide, by decide⟩
    (by decide) (by decide) (by decide) (by decide) (by decide) (Or.inl rfl)
    (by decide) (by decide) (by decide)

end Pillaxia
